import Mathlib

/-!
Verification of the refit engine and scoring path of the AutoMLWhitebox
repository (`autowoe/lib/utilities/refit.py` and `autowoe/lib/autowoe.py`).

External library calls (sklearn's `LogisticRegression.fit`, `l1_min_c`,
`np.logspace`, `np.linalg.inv`, `np.exp`, `scipy.stats.chi2(1).cdf`) are
modelled as oracle parameters; all control flow, array manipulation and
arithmetic of the repository's own code is embedded directly over `ℚ` and
`List`.
-/

/-- Result of one call of sklearn's `LogisticRegression.fit`:
`clf.coef_[0]` and `clf.intercept_[0]`. -/
structure FitRes where
  coef : List ℚ
  icpt : ℚ
deriving DecidableEq

instance : Inhabited FitRes := ⟨⟨[], 0⟩⟩

/-- Errors `refit_reg` can raise: the `cs[-1]` indexing of an empty filtered
penalty grid (Python `IndexError`), and the
`raise ValueError('No negative weights grid')` at the end of the scan. -/
inductive RegErr where
  | indexError
  | noSignPureModel
deriving DecidableEq

/-- Return value of `refit_reg`: coefficients `w[neg]`, intercept, mask `neg`. -/
inductive RegResult where
  | ok (w : List ℚ) (i : ℚ) (mask : List Bool)
  | err (e : RegErr)
deriving DecidableEq

/-- Number of strictly positive entries, `(w > 0).sum()`. -/
def countPos (w : List ℚ) : Nat := (w.filter (fun x => decide (0 < x))).length

/-- The boolean mask `w < 0`. -/
def negMask (w : List ℚ) : List Bool := w.map (fun x => decide (x < 0))

/-- The boolean mask `w != 0`. -/
def nzMask (w : List ℚ) : List Bool := w.map (fun x => decide (x ≠ 0))

/-- Number of nonzero entries of a coefficient vector (its density on the
L1 path; fewer nonzeros = sparser). -/
def nnz (w : List ℚ) : Nat := (w.filter (fun x => decide (x ≠ 0))).length

/-- Lines 16-21 of `refit.py`: `cs = l1_min_c(...) * np.logspace(...)`,
`cs = cs[cs <= max_penalty]`, then `if cs[-1] < max_penalty: cs.append(...)`.
The unfiltered grid (`l1_min_c` times the logspace factors) is the
parameter `grid`; `none` is the `IndexError` raised by `cs[-1]` when the
filtered grid is empty. -/
def buildCs (grid : List ℚ) (max_penalty : ℚ) : Option (List ℚ) :=
  let cs := grid.filter (fun c => decide (c ≤ max_penalty))
  match cs.getLast? with
  | none => none
  | some last => some (if last < max_penalty then cs ++ [max_penalty] else cs)

/-- Lines 37-44 of `refit.py`: scan a list of path models, skipping
(`continue`) every model with `(w > 0).sum() > 0`, returning the first one
with no positive coefficient. -/
def scanPure : List FitRes → Option FitRes
  | [] => none
  | r :: rs => if countPos r.coef = 0 then some r else scanPure rs

/-- `refit_reg` from `refit.py`, lines 10-47.  `fit c` stands for the
external `clf.set_params(C=c); clf.fit(X, y)` solver call at penalty
parameter `c` (the design matrix and target are absorbed into the oracle),
`grid` for `l1_min_c(X, y, loss='log') * np.logspace(0, l1_exp_step,
l1_base_step)`.  The path is fitted over the filtered grid; with
`interp=False` the endpoint model is returned with mask `w != 0`; with
`interp=True` the path is scanned in reversed order (`weights[::-1]`) for
the first model with zero positive coefficients, returned with mask
`w < 0`, and a `ValueError` is raised when none qualifies. -/
def refit_reg (fit : ℚ → FitRes) (grid : List ℚ) (max_penalty : ℚ)
    (interp : Bool) : RegResult :=
  match buildCs grid max_penalty with
  | none => .err .indexError
  | some cs =>
    let path := cs.map fit
    if interp then
      match scanPure path.reverse with
      | some r => .ok (r.coef.filter (fun x => decide (x < 0))) r.icpt (negMask r.coef)
      | none => .err .noSignPureModel
    else
      let r := path.getLast?.getD default
      .ok (r.coef.filter (fun x => decide (x ≠ 0))) r.icpt (nzMask r.coef)

/-- Helper: if every grid point is filtered out, `buildCs` is `none`. -/
lemma buildCs_eq_none {grid : List ℚ} {max_penalty : ℚ}
    (h : ∀ c ∈ grid, max_penalty < c) : buildCs grid max_penalty = none := by
  have hf : grid.filter (fun c => decide (c ≤ max_penalty)) = [] := by
    rw [List.filter_eq_nil_iff]
    intro c hc
    simp only [decide_eq_true_eq, not_le]
    exact h c hc
  simp [buildCs, hf]

/-- C3 (counterexample): with the whole penalty grid strictly above
`max_penalty` (the claim's premise: `max_penalty` below the starting point
of the L1 path), `refit_reg` raises an `IndexError` at `cs[-1]` instead of
returning the all-zero intercept-only model the claim describes.  Concrete
input: grid `[2]`, `max_penalty = 1`, a solver oracle returning the
all-zero model. -/
theorem refit_reg_below_grid_ce :
    refit_reg (fun _ => ⟨[0], 0⟩) [2] 1 true = .err .indexError ∧
      (1 : ℚ) < 2 := by
  constructor
  · decide
  · norm_num

/-- C3 (amended): if `max_penalty` is strictly below every point of the
penalty grid (in particular, strictly below the path's starting point
`l1_min_c`, since the grid increases from it), `refit_reg` fails with an
`IndexError` — the filtered grid is empty and `cs[-1]` is out of bounds —
rather than returning an intercept-only model. -/
theorem refit_reg_below_grid_raises (fit : ℚ → FitRes) (grid : List ℚ)
    (max_penalty : ℚ) (interp : Bool)
    (h : ∀ c ∈ grid, max_penalty < c) :
    refit_reg fit grid max_penalty interp = .err .indexError := by
  unfold refit_reg
  rw [buildCs_eq_none h]

/-- C3 (witness for the amended theorem). -/
theorem refit_reg_below_grid_raises_witness :
    refit_reg (fun _ => ⟨[0], 0⟩) [3, 4] 2 false = .err .indexError := by
  exact refit_reg_below_grid_raises (fun _ => ⟨[0], 0⟩) [3, 4] 2 false
    (by decide)

/-- A path oracle with two models: the one at the strong-penalty end
(`c ≤ 1`) is sign-pure and sparser (one nonzero); the one at the target
end is sign-pure and denser (two nonzeros). -/
def fitCE (c : ℚ) : FitRes := if c ≤ 1 then ⟨[-1, 0], 7⟩ else ⟨[-1, -1], 9⟩

/-- Helper: a successful first-pure scan splits the list into a prefix, the
returned model, and a suffix of skipped models. -/
lemma scanPure_some (l : List FitRes) (r : FitRes) (h : scanPure l = some r) :
    ∃ pre post, l = pre ++ r :: post ∧ countPos r.coef = 0 ∧
      ∀ s ∈ pre, 0 < countPos s.coef := by
  induction l with
  | nil => simp [scanPure] at h
  | cons x xs ih =>
    by_cases hx : countPos x.coef = 0
    · simp only [scanPure, hx, if_pos rfl] at h
      refine ⟨[], xs, ?_, ?_, ?_⟩
      · simp [(Option.some_inj.mp h)]
      · rw [← Option.some_inj.mp h]; exact hx
      · intro s hs; simp at hs
    · simp only [scanPure, hx, if_neg hx] at h
      obtain ⟨pre, post, hl, hr, hpre⟩ := ih h
      refine ⟨x :: pre, post, by simp [hl], hr, ?_⟩
      intro s hs
      rcases List.mem_cons.mp hs with hs | hs
      · exact hs ▸ Nat.pos_of_ne_zero hx
      · exact hpre s hs

/-- Helper: scanning the reverse of a list finds the LAST qualifying
element of the original list: everything after it fails the test. -/
lemma scanPure_reverse_some (l : List FitRes) (r : FitRes)
    (h : scanPure l.reverse = some r) :
    ∃ pre post, l = pre ++ r :: post ∧ countPos r.coef = 0 ∧
      ∀ s ∈ post, 0 < countPos s.coef := by
  obtain ⟨pre, post, hl, hr, hpre⟩ := scanPure_some l.reverse r h
  refine ⟨post.reverse, pre.reverse, ?_, hr, ?_⟩
  · have := congrArg List.reverse hl
    simpa [List.reverse_append] using this
  · intro s hs
    exact hpre s (by simpa using hs)

/-- C1 (counterexample): on the grid `[1, 2]` with `max_penalty = 2` the
fitted path is `[⟨[-1, 0], 7⟩, ⟨[-1, -1], 9⟩]`; both models have zero
positive coefficients, and the strong-penalty one (`[-1, 0]`, one nonzero)
is strictly sparser than `[-1, -1]` (two nonzeros).  `refit_reg` with
`interp = True` nevertheless returns the dense endpoint model
`([-1, -1], 9)` — it scans `weights[::-1]`, i.e. from the target penalty
backwards — not the sparsest sign-pure model `([-1], 7)` the claim
predicts. -/
theorem refit_reg_sparsest_ce :
    refit_reg fitCE [1, 2] 2 true = .ok [-1, -1] 9 [true, true] ∧
      countPos (fitCE 1).coef = 0 ∧ nnz (fitCE 1).coef < nnz [-1, -1] ∧
      refit_reg fitCE [1, 2] 2 true ≠ .ok [-1] 7 [true, false] := by
  refine ⟨by decide, by decide, by decide, by decide⟩

/-- C1 (amended): with `interp = True` and a non-empty filtered grid,
`refit_reg` scans the fitted path from the target penalty (the dense end,
`weights[::-1]`) toward the strongest penalty and returns the qualifying
model NEAREST THE TARGET PENALTY: its coefficients restricted to the
strictly negative ones, its intercept, and the mask `w < 0`; every model
strictly after it on the path (closer to the target penalty) has at least
one positive coefficient. -/
theorem refit_reg_returns_last_sign_pure (fit : ℚ → FitRes) (grid : List ℚ)
    (max_penalty : ℚ) (cs : List ℚ) (w : List ℚ) (i : ℚ) (m : List Bool)
    (hcs : buildCs grid max_penalty = some cs)
    (hok : refit_reg fit grid max_penalty true = .ok w i m) :
    ∃ pre r post, cs.map fit = pre ++ r :: post ∧ countPos r.coef = 0 ∧
      (∀ s ∈ post, 0 < countPos s.coef) ∧
      w = r.coef.filter (fun x => decide (x < 0)) ∧ i = r.icpt ∧
      m = negMask r.coef := by
  unfold refit_reg at hok
  rw [hcs] at hok
  simp only [if_pos rfl, if_true] at hok
  rcases hscan : scanPure (cs.map fit).reverse with _ | r
  · rw [hscan] at hok; exact absurd hok (by simp)
  · rw [hscan] at hok
    obtain ⟨pre, post, hl, hr, hpost⟩ := scanPure_reverse_some (cs.map fit) r hscan
    refine ⟨pre, r, post, hl, hr, hpost, ?_, ?_, ?_⟩ <;>
      cases hok <;> rfl

/-- C1 (witness for the amended theorem): instantiated on the
counterexample path; the returned model `⟨[-1, -1], 9⟩` is the qualifying
model nearest the target penalty. -/
theorem refit_reg_returns_last_sign_pure_witness :
    ∃ pre r post, [1, 2].map fitCE = pre ++ r :: post ∧
      countPos r.coef = 0 ∧ (∀ s ∈ post, 0 < countPos s.coef) ∧
      [(-1 : ℚ), -1] = r.coef.filter (fun x => decide (x < 0)) ∧
      (9 : ℚ) = r.icpt ∧ [true, true] = negMask r.coef := by
  exact refit_reg_returns_last_sign_pure fitCE [1, 2] 2 [1, 2] [-1, -1] 9
    [true, true] (by decide) (by decide)

/-- Helper: a list filtered to its strictly negative entries has no
strictly positive entry. -/
lemma countPos_filter_neg (l : List ℚ) :
    countPos (l.filter (fun x => decide (x < 0))) = 0 := by
  unfold countPos
  rw [List.filter_filter, List.length_eq_zero, List.filter_eq_nil_iff]
  intro a _
  simp only [Bool.and_eq_true, decide_eq_true_eq, not_and]
  intro h0 hneg
  exact absurd hneg (not_lt_of_gt h0)

/-- Helper: if every model fails the sign test, the scan returns nothing. -/
lemma scanPure_eq_none (l : List FitRes)
    (h : ∀ r ∈ l, 0 < countPos r.coef) : scanPure l = none := by
  induction l with
  | nil => rfl
  | cons x xs ih =>
    have hx : countPos x.coef ≠ 0 :=
      Nat.pos_iff_ne_zero.mp (h x (List.mem_cons_self x xs))
    simp only [scanPure, if_neg hx]
    exact ih (fun r hr => h r (List.mem_cons_of_mem x hr))

/-- C6: sign safety of `refit_reg` with the sign constraint enabled
(`interp = True`).  (1) Whenever it returns, the returned coefficient
vector has zero strictly positive entries (it is `w[w < 0]`); (2) when the
filtered grid is non-empty but every model on the fitted path has at least
one positive coefficient, it raises the `ValueError('No negative weights
grid')` — the `NoSignPureModel` failure — instead of silently returning a
mixed-sign result. -/
theorem refit_reg_sign_safety (fit : ℚ → FitRes) (grid : List ℚ)
    (max_penalty : ℚ) :
    (∀ w i m, refit_reg fit grid max_penalty true = .ok w i m →
      countPos w = 0) ∧
    (∀ cs, buildCs grid max_penalty = some cs →
      (∀ r ∈ cs.map fit, 0 < countPos r.coef) →
      refit_reg fit grid max_penalty true = .err .noSignPureModel) := by
  constructor
  · intro w i m hok
    unfold refit_reg at hok
    rcases hcs : buildCs grid max_penalty with _ | cs
    · rw [hcs] at hok; exact absurd hok (by simp)
    · rw [hcs] at hok
      simp only [if_pos rfl, if_true] at hok
      rcases hscan : scanPure ((cs.map fit)).reverse with _ | r
      · rw [hscan] at hok; exact absurd hok (by simp)
      · rw [hscan] at hok
        cases hok
        exact countPos_filter_neg r.coef
  · intro cs hcs hall
    unfold refit_reg
    rw [hcs]
    simp only [if_pos rfl, if_true]
    rw [scanPure_eq_none ((cs.map fit)).reverse
      (fun r hr => hall r (List.mem_reverse.mp hr))]

/-- C6 (witness): both conjuncts instantiated — the dense endpoint model
returned on the `fitCE` path has zero positive coefficients, and a path
whose only model is `⟨[1], 0⟩` makes `refit_reg` raise the
no-sign-pure-model error. -/
theorem refit_reg_sign_safety_witness :
    countPos [(-1 : ℚ), -1] = 0 ∧
      refit_reg (fun _ => ⟨[1], 0⟩) [1] 1 true = .err .noSignPureModel := by
  constructor
  · exact (refit_reg_sign_safety fitCE [1, 2] 2).1 [-1, -1] 9 [true, true]
      (by decide)
  · exact (refit_reg_sign_safety (fun _ => ⟨[1], 0⟩) [1] 1).2 [1]
      (by decide) (by decide)

/-- `np.dot` of two vectors. -/
def dotQ (a b : List ℚ) : ℚ := (List.zipWith (fun x y => x * y) a b).sum

/-- `np.diagonal()` of a square matrix held as a list of rows. -/
def diagonal (M : List (List ℚ)) : List ℚ :=
  (List.range M.length).map (fun i => (M.getD i []).getD i 0)

/-- `calc_p_val` from `refit.py`, lines 116-130, translated line by line:
`coef_ = np.concatenate([weights, [intercept]])`,
`X = np.concatenate([X, ones], axis=1)`,
`P_ = 1 / (1 + np.exp(-np.dot(X, coef_)))`, `P_ = P_ * (1 - P_)`,
`H = np.dot((P_[:, np.newaxis] * X).T, X)`, `b_var = inv(H).diagonal()`,
`Wstat = coef_ ** 2 / b_var`, `p_vals = 1 - chi2(1).cdf(Wstat)`.
`expf` stands for `np.exp`, `chi2` for `stats.chi2(1).cdf`, `inv` for
`np.linalg.inv`; the Hessian's dimension is the length of `coef_`, which
numpy's `np.dot(X, coef_)` forces to equal the augmented column count. -/
def calc_p_val (expf chi2 : ℚ → ℚ) (inv : List (List ℚ) → List (List ℚ))
    (X : List (List ℚ)) (weights : List ℚ) (intercept : ℚ) :
    List ℚ × List ℚ :=
  let coef_ := weights ++ [intercept]
  let Xa := X.map (fun r => r ++ [1])
  let P1 := Xa.map (fun r => 1 / (1 + expf (-(dotQ r coef_))))
  let P_ := P1.map (fun p => p * (1 - p))
  let n := coef_.length
  let H := (List.range n).map (fun j => (List.range n).map (fun k =>
    (List.zipWith (fun p r => p * r.getD j 0 * r.getD k 0) P_ Xa).sum))
  let b_var := diagonal (inv H)
  let Wstat := List.zipWith (fun c v => c ^ 2 / v) coef_ b_var
  let p_vals := Wstat.map (fun w => 1 - chi2 w)
  (p_vals, b_var)

/-- The same computation written from the spec's words: coefficient vector
with the intercept appended last, design matrix augmented with a
constant-ones column, predicted probabilities `p = sigmoid(X·coef)`,
Fisher-information Hessian `H_jk = Σ_samples x_j x_k p(1-p)`, variances as
the diagonal of the inverse Hessian, Wald statistics `coef² / variance`,
p-values `1 - CDF_chi2(1)(Wald)`. -/
def calcPValSpec (expf chi2 : ℚ → ℚ) (inv : List (List ℚ) → List (List ℚ))
    (X : List (List ℚ)) (weights : List ℚ) (intercept : ℚ) :
    List ℚ × List ℚ :=
  let coef_ := weights ++ [intercept]
  let Xa := X.map (fun r => r ++ [1])
  let prob := Xa.map (fun r => 1 / (1 + expf (-(dotQ r coef_))))
  let n := coef_.length
  let H := (List.range n).map (fun j => (List.range n).map (fun k =>
    (List.zipWith (fun p r => r.getD j 0 * r.getD k 0 * (p * (1 - p)))
      prob Xa).sum))
  let b_var := diagonal (inv H)
  let wald := List.zipWith (fun c v => c ^ 2 / v) coef_ b_var
  (wald.map (fun w => 1 - chi2 w), b_var)

/-- Helper: pointwise-equal zip functions give equal zips. -/
lemma zipWith_ext {α β γ : Type} (f g : α → β → γ) (l : List α)
    (l' : List β) (h : ∀ a b, f a b = g a b) :
    List.zipWith f l l' = List.zipWith g l l' := by
  have hfg : f = g := funext (fun a => funext (h a))
  rw [hfg]

/-- Helper: the code's Hessian `(P_[:, None] * X).T @ X` with
`P_ = p*(1-p)` equals the spec's `H_jk = Σ x_j x_k p(1-p)`. -/
lemma hessian_code_eq_spec (P1 : List ℚ) (Xa : List (List ℚ)) (n : Nat) :
    (List.range n).map (fun j => (List.range n).map (fun k =>
      (List.zipWith (fun p r => p * r.getD j 0 * r.getD k 0)
        (P1.map (fun p => p * (1 - p))) Xa).sum)) =
    (List.range n).map (fun j => (List.range n).map (fun k =>
      (List.zipWith (fun p r => r.getD j 0 * r.getD k 0 * (p * (1 - p)))
        P1 Xa).sum)) := by
  refine congrArg (fun f => List.map f (List.range n)) (funext (fun j => ?_))
  refine congrArg (fun f => List.map f (List.range n)) (funext (fun k => ?_))
  rw [List.zipWith_map_left]
  exact congrArg List.sum (zipWith_ext _ _ _ _ (fun a b => by ring))

/-- C7: `calc_p_val(X, weights, intercept)` computes exactly the spec's
Wald pipeline — sigmoid probabilities on the ones-augmented matrix with the
intercept appended last, Hessian `H_jk = Σ x_j x_k p(1-p)`, variances as
the inverse-Hessian diagonal, Wald statistics `coef²/variance`, p-values
`1 - CDF_chi2(1)` — and returns one p-value and one variance per
coefficient including the intercept (whose entries come last), provided the
matrix inverse returns a matrix with the shape `np.linalg.inv` guarantees. -/
theorem calc_p_val_matches_spec (expf chi2 : ℚ → ℚ)
    (inv : List (List ℚ) → List (List ℚ)) (X : List (List ℚ))
    (weights : List ℚ) (intercept : ℚ)
    (hinv : ∀ M, (inv M).length = M.length) :
    calc_p_val expf chi2 inv X weights intercept =
      calcPValSpec expf chi2 inv X weights intercept ∧
    (calc_p_val expf chi2 inv X weights intercept).1.length =
      weights.length + 1 ∧
    (calc_p_val expf chi2 inv X weights intercept).2.length =
      weights.length + 1 := by
  refine ⟨?_, ?_, ?_⟩
  · simp only [calc_p_val, calcPValSpec]
    rw [hessian_code_eq_spec]
  · simp only [calc_p_val, diagonal, List.length_map, List.length_zipWith,
      List.length_range, hinv, List.length_append, List.length_singleton,
      min_self]
  · simp only [calc_p_val, diagonal, List.length_map, List.length_range,
      hinv, List.length_append, List.length_singleton]

/-- A shape-respecting stand-in for `np.linalg.inv`: an all-ones square
matrix of the input's dimension. -/
def invOnes (M : List (List ℚ)) : List (List ℚ) :=
  M.map (fun _ => M.map (fun _ => (1 : ℚ)))

lemma invOnes_length : ∀ M, (invOnes M).length = M.length := by
  intro M; simp [invOnes]

/-- C7 (witness). -/
theorem calc_p_val_matches_spec_witness :
    calc_p_val (fun _ => 1) (fun _ => 0) invOnes [[2]] [3] 4 =
      calcPValSpec (fun _ => 1) (fun _ => 0) invOnes [[2]] [3] 4 ∧
    (calc_p_val (fun _ => 1) (fun _ => 0) invOnes [[2]] [3] 4).1.length = 2 ∧
    (calc_p_val (fun _ => 1) (fun _ => 0) invOnes [[2]] [3] 4).2.length = 2 := by
  exact calc_p_val_matches_spec (fun _ => 1) (fun _ => 0) invOnes [[2]] [3] 4
    invOnes_length

/-- `np.arange(len(mask))[mask]`: the indices of the kept columns. -/
def trueIdx (mask : List Bool) : List Nat :=
  (List.range mask.length).filter (fun i => mask.getD i false)

/-- `X[:, idxs]`: restrict every row to the given column indices. -/
def selectCols (X : List (List ℚ)) (idxs : List Nat) : List (List ℚ) :=
  X.map (fun row => idxs.map (fun i => row.getD i 0))

/-- `np.ndarray.max()` (0 on the empty array, where numpy raises). -/
def listMax : List ℚ → ℚ
  | [] => 0
  | [x] => x
  | x :: y :: rest => max x (listMax (y :: rest))

/-- `np.argmax`: index of the first occurrence of the maximum. -/
def argmaxIdx : List ℚ → Nat
  | [] => 0
  | [_] => 0
  | x :: y :: rest =>
    if listMax (y :: rest) ≤ x then 0 else argmaxIdx (y :: rest) + 1

/-- A Python runtime value as far as the fifth return slot of
`refit_simple` is concerned: either a numpy array, or a bound method
object (an attribute access without the call parentheses). -/
inductive NpValue where
  | arr (xs : List ℚ)
  | method (name : String) (recv : List ℚ)
deriving DecidableEq

/-- The tuple `refit_simple` returns at line 112 of `refit.py`. -/
structure SimpleOut where
  coef : List ℚ
  icpt : ℚ
  mask : List Bool
  p_vals : List ℚ
  b_var : NpValue
deriving DecidableEq

/-- Failures of `refit_simple`: the `assert sl_ok.sum() > 0` at loop entry;
`outOfFuel` marks exhaustion of the iteration bound of the embedding. -/
inductive SimpleErr where
  | assertionError
  | outOfFuel
deriving DecidableEq

/-- Outcome of one pass of the `while True` body: `continue` with an
updated keep-mask, `return`, or a raised error. -/
inductive StepRes where
  | drop (m : List Bool)
  | ret (o : SimpleOut)
  | fail (e : SimpleErr)
deriving DecidableEq

inductive SimpleResult where
  | ok (o : SimpleOut)
  | err (e : SimpleErr)
deriving DecidableEq

/-- `calc_p_val_on_valid` from `refit.py`, lines 133-138: fit a fresh
unpenalized logistic regression on the validation columns (the external
solver call is the `fitValid` oracle, keyed by the kept column indices that
determine `X_val_`) and run `calc_p_val` on its coefficients. -/
def calc_p_val_on_valid (expf chi2 : ℚ → ℚ)
    (inv : List (List ℚ) → List (List ℚ))
    (fitValid : List Nat → List ℚ × ℚ) (ok_idx : List Nat)
    (Xv : List (List ℚ)) : List ℚ × List ℚ :=
  let fv := fitValid ok_idx
  calc_p_val expf chi2 inv Xv fv.1 fv.2

/-- `sl_pos_coef.sum()` of `refit.py`, lines 74-76: with `interp`, the
number of `true` entries of the mask `clf.coef_[0] >= 0`; without it, the
mask stays `np.zeros(X_.shape[1], dtype=np.bool)` and the count is zero. -/
def posCount (interp : Bool) (coef : List ℚ) : Nat :=
  if interp then (coef.filter (fun x => decide (0 ≤ x))).length else 0

/-- One pass of the `while True` body of `refit_simple` (`refit.py`,
lines 59-112).  `fitTrain ok_idx` stands for the external
`clf.fit(X[:, sl_ok], y)`; the assert at line 61 fails when no feature is
left; with `interp` the mask `clf.coef_[0] >= 0` is formed and, if any
entry holds, the feature at `clf.coef_[0].argmax()` is dropped and the loop
restarts; otherwise training Wald p-values are computed, the intercept's
entry is split off (`p_vals[:-1]`), `model_p_vals` copies the array while
`model_b_var` is assigned `b_var.copy` — the bound method, the parentheses
are missing in the source; a too-large training p-value drops the offending
feature; with validation data present the same check runs on p-values from
a fresh fit on the validation columns; otherwise the tuple is returned. -/
def refit_simpleStep (expf chi2 : ℚ → ℚ)
    (inv : List (List ℚ) → List (List ℚ)) (X : List (List ℚ))
    (fitTrain fitValid : List Nat → List ℚ × ℚ) (interp : Bool)
    (p_val : ℚ) (X_val : Option (List (List ℚ))) (sl_ok : List Bool) :
    StepRes :=
  let ok_idx := trueIdx sl_ok
  if ok_idx = [] then .fail .assertionError
  else
    let X_ := selectCols X ok_idx
    let tc := fitTrain ok_idx
    if 0 < posCount interp tc.1 then
      .drop (sl_ok.set (ok_idx.getD (argmaxIdx tc.1) 0) false)
    else
      let pv := calc_p_val expf chi2 inv X_ tc.1 tc.2
      let p_vals_f := pv.1.dropLast
      let model_p_vals := pv.1
      let model_b_var := NpValue.method "copy" pv.2
      if p_val < listMax p_vals_f then
        .drop (sl_ok.set (ok_idx.getD (argmaxIdx p_vals_f) 0) false)
      else
        match X_val with
        | some Xv =>
          let pvv := calc_p_val_on_valid expf chi2 inv fitValid ok_idx
            (selectCols Xv ok_idx)
          let pvv_f := pvv.1.dropLast
          if p_val < listMax pvv_f then
            .drop (sl_ok.set (ok_idx.getD (argmaxIdx pvv_f) 0) false)
          else .ret ⟨tc.1, tc.2, sl_ok, model_p_vals, model_b_var⟩
        | none => .ret ⟨tc.1, tc.2, sl_ok, model_p_vals, model_b_var⟩

/-- The `while True` loop of `refit_simple`, with an explicit iteration
budget; each pass either returns, raises, or continues on the shrunken
keep-mask. -/
def refit_simpleLoop (expf chi2 : ℚ → ℚ)
    (inv : List (List ℚ) → List (List ℚ)) (X : List (List ℚ))
    (fitTrain fitValid : List Nat → List ℚ × ℚ) (interp : Bool)
    (p_val : ℚ) (X_val : Option (List (List ℚ))) :
    Nat → List Bool → SimpleResult
  | 0, _ => .err .outOfFuel
  | fuel + 1, m =>
    match refit_simpleStep expf chi2 inv X fitTrain fitValid interp p_val
        X_val m with
    | .drop m2 =>
      refit_simpleLoop expf chi2 inv X fitTrain fitValid interp p_val X_val
        fuel m2
    | .ret o => .ok o
    | .fail e => .err e

/-- `X.shape[1]`. -/
def width (X : List (List ℚ)) : Nat := (X.headD []).length

/-- `refit_simple` from `refit.py`, lines 51-112: start from the all-true
keep-mask `np.ones(X.shape[1], dtype=bool)` and iterate; the budget
`width X + 1` covers one drop per feature plus a final pass (the
termination theorem shows it is never exhausted). -/
def refit_simple (expf chi2 : ℚ → ℚ)
    (inv : List (List ℚ) → List (List ℚ)) (X : List (List ℚ))
    (fitTrain fitValid : List Nat → List ℚ × ℚ) (interp : Bool)
    (p_val : ℚ) (X_val : Option (List (List ℚ))) : SimpleResult :=
  refit_simpleLoop expf chi2 inv X fitTrain fitValid interp p_val X_val
    (width X + 1) (List.replicate (width X) true)

/-- Helper: in-range `getD` produces a member of the list. -/
lemma getD_mem_of_lt {α : Type} (l : List α) (j : Nat) (d : α)
    (h : j < l.length) : l.getD j d ∈ l := by
  induction l generalizing j with
  | nil => simp at h
  | cons x xs ih =>
    cases j with
    | zero => simp
    | succ n =>
      simp only [List.getD_cons_succ]
      exact List.mem_cons_of_mem x (ih n (Nat.lt_of_succ_lt_succ h))

/-- Helper: members of `trueIdx` are kept positions of the mask. -/
lemma mem_trueIdx {m : List Bool} {i : Nat} (h : i ∈ trueIdx m) :
    m.getD i false = true := by
  unfold trueIdx at h
  exact (List.mem_filter.mp h).2

/-- Helper: clearing a kept position removes exactly one `true`. -/
lemma count_set_false (m : List Bool) (i : Nat)
    (h : m.getD i false = true) :
    (m.set i false).count true + 1 = m.count true := by
  induction m generalizing i with
  | nil => simp at h
  | cons b t ih =>
    cases i with
    | zero =>
      simp only [List.getD_cons_zero] at h
      subst h
      simp [List.count_cons]
    | succ j =>
      simp only [List.getD_cons_succ] at h
      have := ih j h
      simp only [List.set_cons_succ, List.count_cons]
      omega

/-- Helper: every member is at most the list maximum. -/
lemma le_listMax {l : List ℚ} {p : ℚ} (h : p ∈ l) : p ≤ listMax l := by
  induction l with
  | nil => simp at h
  | cons x xs ih =>
    cases xs with
    | nil =>
      rw [List.mem_singleton] at h
      subst h
      exact le_of_eq rfl
    | cons y rest =>
      rcases List.mem_cons.mp h with h | h
      · subst h; exact le_max_left _ _
      · exact le_trans (ih h) (le_max_right _ _)

/-- Helper: the argmax of a non-empty list is in range. -/
lemma argmaxIdx_lt {l : List ℚ} (h : l ≠ []) : argmaxIdx l < l.length := by
  induction l with
  | nil => exact absurd rfl h
  | cons x xs ih =>
    cases xs with
    | nil => simp [argmaxIdx]
    | cons y rest =>
      by_cases hc : listMax (y :: rest) ≤ x
      · simp [argmaxIdx, hc]
      · simp only [argmaxIdx, if_neg hc, List.length_cons]
        exact Nat.succ_lt_succ (ih (by simp))

/-- Helper: the p-value vector of `calc_p_val` has one entry per
coefficient plus the intercept, when the inverse keeps the dimension. -/
lemma calc_p_val_fst_len (expf chi2 : ℚ → ℚ)
    (inv : List (List ℚ) → List (List ℚ))
    (hinv : ∀ M, (inv M).length = M.length) (X : List (List ℚ))
    (w : List ℚ) (b : ℚ) :
    (calc_p_val expf chi2 inv X w b).1.length = w.length + 1 := by
  simp only [calc_p_val, diagonal, List.length_map, List.length_zipWith,
    List.length_range, hinv, List.length_append, List.length_singleton,
    min_self]

/-- Helper: setting the mask at an in-range kept index is a valid drop. -/
lemma drop_set_valid {m : List Bool} {j : Nat}
    (hj : j < (trueIdx m).length) :
    m.getD ((trueIdx m).getD j 0) false = true :=
  mem_trueIdx (getD_mem_of_lt _ j 0 hj)


/-- Helper: a positive sign-violation count needs a non-empty coefficient
vector. -/
lemma posCount_pos_ne_nil {interp : Bool} {coef : List ℚ}
    (h : 0 < posCount interp coef) : coef ≠ [] := by
  intro hnil
  subst hnil
  cases interp <;> simp [posCount] at h

/-- Helper: a zero sign-violation count under `interp` means every
coefficient is strictly negative (the test is `coef >= 0`). -/
lemma posCount_eq_zero_neg {coef : List ℚ} (h : posCount true coef = 0) :
    ∀ c ∈ coef, c < 0 := by
  intro c hc
  simp only [posCount, if_true, List.length_eq_zero] at h
  have hx := List.filter_eq_nil_iff.mp h c hc
  simp only [decide_eq_true_eq] at hx
  exact not_le.mp hx

/-- Helper: the only raised error of a loop pass is the entry assert. -/
lemma step_fail_eq {expf chi2 : ℚ → ℚ}
    {inv : List (List ℚ) → List (List ℚ)} {X : List (List ℚ)}
    {fitTrain fitValid : List Nat → List ℚ × ℚ} {interp : Bool} {p_val : ℚ}
    {X_val : Option (List (List ℚ))} {m : List Bool} {e : SimpleErr}
    (h : refit_simpleStep expf chi2 inv X fitTrain fitValid interp p_val
      X_val m = .fail e) : e = .assertionError := by
  cases X_val with
  | none =>
    simp only [refit_simpleStep] at h
    split at h
    · cases h; rfl
    · split at h
      · cases h
      · split at h
        · cases h
        · cases h
  | some Xv =>
    simp only [refit_simpleStep] at h
    split at h
    · cases h; rfl
    · split at h
      · cases h
      · split at h
        · cases h
        · split at h
          · cases h
          · cases h

/-- Helper: every `continue` of the loop body clears exactly one kept
position of the mask (given the shape guarantees of the external solver
and of `np.linalg.inv`). -/
lemma step_drop_exists {expf chi2 : ℚ → ℚ}
    {inv : List (List ℚ) → List (List ℚ)} {X : List (List ℚ)}
    {fitTrain fitValid : List Nat → List ℚ × ℚ} {interp : Bool} {p_val : ℚ}
    {X_val : Option (List (List ℚ))} {m m2 : List Bool}
    (hfit : ∀ idxs, (fitTrain idxs).1.length = idxs.length)
    (hfitv : ∀ idxs, (fitValid idxs).1.length = idxs.length)
    (hinv : ∀ M, (inv M).length = M.length)
    (h : refit_simpleStep expf chi2 inv X fitTrain fitValid interp p_val
      X_val m = .drop m2) :
    ∃ i, m.getD i false = true ∧ m2 = m.set i false := by
  have hplen : ∀ (w : List ℚ) (b : ℚ) (Xc : List (List ℚ)),
      w.length = (trueIdx m).length →
      ((calc_p_val expf chi2 inv Xc w b).1.dropLast).length =
        (trueIdx m).length := by
    intro w b Xc hw
    rw [List.length_dropLast, calc_p_val_fst_len expf chi2 inv hinv, hw,
      Nat.add_sub_cancel]
  cases X_val with
  | none =>
    simp only [refit_simpleStep] at h
    split at h
    · cases h
    · rename_i hne
      split at h
      · rename_i hpos
        injection h with h2
        refine ⟨_, drop_set_valid ?_, h2.symm⟩
        have hb := argmaxIdx_lt (posCount_pos_ne_nil hpos)
        rwa [hfit] at hb
      · split at h
        · injection h with h2
          refine ⟨_, drop_set_valid ?_, h2.symm⟩
          have hlen := hplen (fitTrain (trueIdx m)).1 (fitTrain (trueIdx m)).2
            (selectCols X (trueIdx m)) (hfit (trueIdx m))
          have hne2 : ((calc_p_val expf chi2 inv (selectCols X (trueIdx m))
              (fitTrain (trueIdx m)).1 (fitTrain (trueIdx m)).2).1.dropLast)
              ≠ [] := by
            rw [← List.length_pos_iff_ne_nil, hlen,
              List.length_pos_iff_ne_nil]
            exact hne
          have hb := argmaxIdx_lt hne2
          rwa [hlen] at hb
        · cases h
  | some Xv =>
    simp only [refit_simpleStep] at h
    split at h
    · cases h
    · rename_i hne
      split at h
      · rename_i hpos
        injection h with h2
        refine ⟨_, drop_set_valid ?_, h2.symm⟩
        have hb := argmaxIdx_lt (posCount_pos_ne_nil hpos)
        rwa [hfit] at hb
      · split at h
        · injection h with h2
          refine ⟨_, drop_set_valid ?_, h2.symm⟩
          have hlen := hplen (fitTrain (trueIdx m)).1 (fitTrain (trueIdx m)).2
            (selectCols X (trueIdx m)) (hfit (trueIdx m))
          have hne2 : ((calc_p_val expf chi2 inv (selectCols X (trueIdx m))
              (fitTrain (trueIdx m)).1 (fitTrain (trueIdx m)).2).1.dropLast)
              ≠ [] := by
            rw [← List.length_pos_iff_ne_nil, hlen,
              List.length_pos_iff_ne_nil]
            exact hne
          have hb := argmaxIdx_lt hne2
          rwa [hlen] at hb
        · split at h
          · injection h with h2
            refine ⟨_, drop_set_valid ?_, h2.symm⟩
            have hlen := hplen (fitValid (trueIdx m)).1
              (fitValid (trueIdx m)).2 (selectCols Xv (trueIdx m))
              (hfitv (trueIdx m))
            have hne3 : ((calc_p_val_on_valid expf chi2 inv fitValid
                (trueIdx m) (selectCols Xv (trueIdx m))).1.dropLast)
                ≠ [] := by
              unfold calc_p_val_on_valid
              rw [← List.length_pos_iff_ne_nil, hlen,
                List.length_pos_iff_ne_nil]
              exact hne
            have hb := argmaxIdx_lt hne3
            unfold calc_p_val_on_valid at hb
            rwa [hlen] at hb
          · cases h

/-- Helper: what holds of the tuple a loop pass returns: the mask is the
current one, the coefficients are the current training fit, every
non-intercept training p-value (the returned vector without its last,
intercept, entry) passed the threshold check, under `interp` every
coefficient is strictly negative, and the fifth slot is the bound method
`b_var.copy`, not an array. -/
lemma step_ret_props {expf chi2 : ℚ → ℚ}
    {inv : List (List ℚ) → List (List ℚ)} {X : List (List ℚ)}
    {fitTrain fitValid : List Nat → List ℚ × ℚ} {interp : Bool} {p_val : ℚ}
    {X_val : Option (List (List ℚ))} {m : List Bool} {o : SimpleOut}
    (h : refit_simpleStep expf chi2 inv X fitTrain fitValid interp p_val
      X_val m = .ret o) :
    o.mask = m ∧ o.coef = (fitTrain (trueIdx m)).1 ∧
    (∀ p ∈ o.p_vals.dropLast, p ≤ p_val) ∧
    (interp = true → ∀ c ∈ o.coef, c < 0) ∧
    (∃ bv, o.b_var = NpValue.method "copy" bv) := by
  cases X_val with
  | none =>
    simp only [refit_simpleStep] at h
    split at h
    · cases h
    · split at h
      · cases h
      · split at h
        · cases h
        · rename_i hne hpos hple
          cases h
          refine ⟨rfl, rfl, ?_, ?_, ⟨_, rfl⟩⟩
          · intro p hp
            exact le_trans (le_listMax hp) (not_lt.mp hple)
          · intro hi
            subst hi
            exact posCount_eq_zero_neg (Nat.eq_zero_of_not_pos hpos)
  | some Xv =>
    simp only [refit_simpleStep] at h
    split at h
    · cases h
    · split at h
      · cases h
      · split at h
        · cases h
        · rename_i hne hpos hple
          split at h
          · cases h
          · cases h
            refine ⟨rfl, rfl, ?_, ?_, ⟨_, rfl⟩⟩
            · intro p hp
              exact le_trans (le_listMax hp) (not_lt.mp hple)
            · intro hi
              subst hi
              exact posCount_eq_zero_neg (Nat.eq_zero_of_not_pos hpos)

/-- Helper: a successful loop result comes out of some pass returning it. -/
lemma loop_ok_from_step {expf chi2 : ℚ → ℚ}
    {inv : List (List ℚ) → List (List ℚ)} {X : List (List ℚ)}
    {fitTrain fitValid : List Nat → List ℚ × ℚ} {interp : Bool} {p_val : ℚ}
    {X_val : Option (List (List ℚ))} {o : SimpleOut} :
    ∀ fuel m, refit_simpleLoop expf chi2 inv X fitTrain fitValid interp
      p_val X_val fuel m = .ok o →
    ∃ m2, refit_simpleStep expf chi2 inv X fitTrain fitValid interp p_val
      X_val m2 = .ret o := by
  intro fuel
  induction fuel with
  | zero => intro m h; cases h
  | succ f ih =>
    intro m h
    simp only [refit_simpleLoop] at h
    rcases hstep : refit_simpleStep expf chi2 inv X fitTrain fitValid interp
        p_val X_val m with m2 | o2 | e <;> rw [hstep] at h
    · exact ih m2 h
    · injection h with h2
      subst h2
      exact ⟨m, hstep⟩
    · cases h

/-- Helper: with a budget above the number of kept features, the loop never
exhausts it — each pass that continues clears one kept position. -/
lemma loop_no_outOfFuel {expf chi2 : ℚ → ℚ}
    {inv : List (List ℚ) → List (List ℚ)} {X : List (List ℚ)}
    {fitTrain fitValid : List Nat → List ℚ × ℚ} {interp : Bool} {p_val : ℚ}
    {X_val : Option (List (List ℚ))}
    (hfit : ∀ idxs, (fitTrain idxs).1.length = idxs.length)
    (hfitv : ∀ idxs, (fitValid idxs).1.length = idxs.length)
    (hinv : ∀ M, (inv M).length = M.length) :
    ∀ fuel m, m.count true < fuel →
      refit_simpleLoop expf chi2 inv X fitTrain fitValid interp p_val X_val
        fuel m ≠ .err .outOfFuel := by
  intro fuel
  induction fuel with
  | zero => intro m h; exact absurd h (Nat.not_lt_zero _)
  | succ f ih =>
    intro m h hbad
    simp only [refit_simpleLoop] at hbad
    rcases hstep : refit_simpleStep expf chi2 inv X fitTrain fitValid interp
        p_val X_val m with m2 | o | e <;> rw [hstep] at hbad
    · obtain ⟨i, hi, hm2⟩ := step_drop_exists hfit hfitv hinv hstep
      have hcnt := count_set_false m i hi
      refine ih m2 ?_ hbad
      subst hm2
      omega
    · cases hbad
    · have he := step_fail_eq hstep
      subst he
      cases hbad

/-- C5: termination and p-value bound of `refit_simple`.  (1) Every pass of
the elimination loop that continues drops exactly one feature: the count of
kept features strictly shrinks by one; (2) with the iteration budget of one
pass per feature column plus a final pass, the loop always returns or fails
within the budget (never `outOfFuel`); (3) whenever it returns, every
returned p-value for a kept non-intercept coefficient (all entries of the
returned vector except the last, intercept, one) is at most the configured
`p_val` threshold.  Hypotheses: the external solvers return one coefficient
per kept column and `np.linalg.inv` keeps the matrix dimension. -/
theorem refit_simple_terminates_with_small_pvals (expf chi2 : ℚ → ℚ)
    (inv : List (List ℚ) → List (List ℚ)) (X : List (List ℚ))
    (fitTrain fitValid : List Nat → List ℚ × ℚ) (interp : Bool) (p_val : ℚ)
    (X_val : Option (List (List ℚ)))
    (hfit : ∀ idxs, (fitTrain idxs).1.length = idxs.length)
    (hfitv : ∀ idxs, (fitValid idxs).1.length = idxs.length)
    (hinv : ∀ M, (inv M).length = M.length) :
    (∀ m m2, refit_simpleStep expf chi2 inv X fitTrain fitValid interp p_val
      X_val m = .drop m2 → m2.count true + 1 = m.count true) ∧
    refit_simple expf chi2 inv X fitTrain fitValid interp p_val X_val ≠
      .err .outOfFuel ∧
    (∀ o, refit_simple expf chi2 inv X fitTrain fitValid interp p_val X_val
      = .ok o → ∀ p ∈ o.p_vals.dropLast, p ≤ p_val) := by
  refine ⟨?_, ?_, ?_⟩
  · intro m m2 h
    obtain ⟨i, hi, hm2⟩ := step_drop_exists hfit hfitv hinv h
    subst hm2
    exact count_set_false m i hi
  · unfold refit_simple
    apply loop_no_outOfFuel hfit hfitv hinv
    simp
  · intro o h p hp
    obtain ⟨m2, hm2⟩ := loop_ok_from_step (width X + 1)
      (List.replicate (width X) true) h
    exact (step_ret_props hm2).2.2.1 p hp

/-- Concrete conforming solver oracle: one `-1` per kept column, zero
intercept. -/
def exFit (idxs : List Nat) : List ℚ × ℚ := (idxs.map (fun _ => (-1 : ℚ)), 0)

lemma exFit_len : ∀ idxs, (exFit idxs).1.length = idxs.length := by
  intro idxs; simp [exFit]

/-- C5 (witness): the three conjuncts instantiated on a one-column design
matrix with conforming oracles. -/
theorem refit_simple_terminates_with_small_pvals_witness :
    (∀ m m2, refit_simpleStep (fun _ => 0) (fun _ => 1) invOnes [[-1]] exFit
      exFit true 1 none m = .drop m2 → m2.count true + 1 = m.count true) ∧
    refit_simple (fun _ => 0) (fun _ => 1) invOnes [[-1]] exFit exFit true 1
      none ≠ .err .outOfFuel ∧
    (∀ o, refit_simple (fun _ => 0) (fun _ => 1) invOnes [[-1]] exFit exFit
      true 1 none = .ok o → ∀ p ∈ o.p_vals.dropLast, p ≤ 1) := by
  exact refit_simple_terminates_with_small_pvals (fun _ => 0) (fun _ => 1)
    invOnes [[-1]] exFit exFit true 1 none exFit_len exFit_len invOnes_length

/-- C8: whenever `refit_simple` with `interp = True` returns, every entry
of the returned coefficient vector is strictly negative — the sign check is
`clf.coef_[0] >= 0`, so a zero coefficient counts as a violation and causes
a drop-and-restart instead of a return. -/
theorem refit_simple_returns_strictly_negative (expf chi2 : ℚ → ℚ)
    (inv : List (List ℚ) → List (List ℚ)) (X : List (List ℚ))
    (fitTrain fitValid : List Nat → List ℚ × ℚ) (p_val : ℚ)
    (X_val : Option (List (List ℚ))) :
    ∀ o, refit_simple expf chi2 inv X fitTrain fitValid true p_val X_val =
      .ok o → ∀ c ∈ o.coef, c < 0 := by
  intro o h c hc
  obtain ⟨m2, hm2⟩ := loop_ok_from_step (width X + 1)
    (List.replicate (width X) true) h
  exact (step_ret_props hm2).2.2.2.1 rfl c hc

/-- C8 (witness): applied to a run on a one-column design matrix that
returns the coefficient vector `[-1]`. -/
theorem refit_simple_returns_strictly_negative_witness : (-1 : ℚ) < 0 := by
  refine refit_simple_returns_strictly_negative (fun _ => 0) (fun _ => 1)
    invOnes [[-1]] exFit exFit 1 none
    ⟨[-1], 0, [true], [0, 0], NpValue.method "copy" [1, 1]⟩ ?_ (-1)
    (by simp)
  norm_num [refit_simple, refit_simpleLoop, refit_simpleStep, width, trueIdx,
    posCount, selectCols, calc_p_val, diagonal, invOnes, dotQ, listMax,
    argmaxIdx, exFit, List.range_succ]

/-- C2: line 90 of `refit.py` reads `model_b_var = b_var.copy` — without
the call parentheses (line 89 above it has them) — so the fifth component
of the returned tuple is the bound METHOD object `b_var.copy`, not the
vector of coefficient variances.  Evaluated here on a concrete terminating
run: the fifth slot is `NpValue.method "copy" [1, 1]`, a method value
carrying the variance vector `[1, 1]` as its receiver, not the array
`NpValue.arr [1, 1]` the claim describes. -/
theorem refit_simple_returns_bound_method :
    refit_simple (fun _ => 0) (fun _ => 1) invOnes [[-1]] exFit exFit true 1
      none = .ok ⟨[-1], 0, [true], [0, 0], NpValue.method "copy" [1, 1]⟩ := by
  norm_num [refit_simple, refit_simpleLoop, refit_simpleStep, width, trueIdx,
    posCount, selectCols, calc_p_val, diagonal, invOnes, dotQ, listMax,
    argmaxIdx, exFit, List.range_succ]

/-- Lines 499-503 of `autowoe.py`: `valid_enc, valid_target = None, None;
if validation is not None and not self.params['regularized_refit']:
valid_enc = self.test_encoding(validation, best_features); valid_target =
validation[target_name]`.  The WoE encoding of the validation frame and the
target-column extraction are external to this decision and appear as the
`test_encoding` and `getTarget` oracles. -/
def validEncPair {V E T : Type} (test_encoding : V → E) (getTarget : V → T)
    (validation : Option V) (regularized_refit : Bool) :
    Option E × Option T :=
  match validation, regularized_refit with
  | some v, false => (some (test_encoding v), some (getTarget v))
  | _, _ => (none, none)

/-- Helper: without validation data a loop pass never consults the
validation-fit oracle. -/
lemma step_ignores_fitValid (expf chi2 : ℚ → ℚ)
    (inv : List (List ℚ) → List (List ℚ)) (X : List (List ℚ))
    (fitTrain fv1 fv2 : List Nat → List ℚ × ℚ) (interp : Bool) (p_val : ℚ)
    (m : List Bool) :
    refit_simpleStep expf chi2 inv X fitTrain fv1 interp p_val none m =
      refit_simpleStep expf chi2 inv X fitTrain fv2 interp p_val none m := by
  simp only [refit_simpleStep]

/-- Helper: the whole loop is likewise independent of the validation-fit
oracle when no validation data is supplied. -/
lemma loop_ignores_fitValid (expf chi2 : ℚ → ℚ)
    (inv : List (List ℚ) → List (List ℚ)) (X : List (List ℚ))
    (fitTrain fv1 fv2 : List Nat → List ℚ × ℚ) (interp : Bool) (p_val : ℚ) :
    ∀ fuel m, refit_simpleLoop expf chi2 inv X fitTrain fv1 interp p_val
      none fuel m =
    refit_simpleLoop expf chi2 inv X fitTrain fv2 interp p_val none fuel m := by
  intro fuel
  induction fuel with
  | zero => intro m; rfl
  | succ f ih =>
    intro m
    simp only [refit_simpleLoop]
    rw [← step_ignores_fitValid expf chi2 inv X fitTrain fv1 fv2 interp
      p_val m]
    rcases refit_simpleStep expf chi2 inv X fitTrain fv1 interp p_val none m
      with m2 | o | e
    · exact ih m2
    · rfl
    · rfl

/-- C9: validation-based p-value elimination is gated and ordered exactly
as claimed.  (1) With regularized refit enabled, `AutoWoE.fit` passes no
validation data on (whatever frame was supplied); (2) with it disabled and
a validation frame supplied, the frame is encoded and its target extracted
and both are passed; (3) `refit_simple` without validation data never
depends on the validation-fit oracle; (4) in a loop pass with validation
data, once the sign check and the training p-value check both pass, the
pass computes p-values from a fresh unpenalized fit on the validation
columns (`calc_p_val_on_valid`) and drops the kept feature with the largest
validation p-value precisely when it exceeds the threshold, returning
otherwise. -/
theorem validation_gating_and_order {V E T : Type} (test_encoding : V → E)
    (getTarget : V → T) (expf chi2 : ℚ → ℚ)
    (inv : List (List ℚ) → List (List ℚ)) (X Xv : List (List ℚ))
    (fitTrain fitValid fitValid2 : List Nat → List ℚ × ℚ) (interp : Bool)
    (p_val : ℚ) (m : List Bool) :
    (∀ validation : Option V,
      validEncPair test_encoding getTarget validation true = (none, none)) ∧
    (∀ v : V, validEncPair test_encoding getTarget (some v) false =
      (some (test_encoding v), some (getTarget v))) ∧
    (refit_simple expf chi2 inv X fitTrain fitValid interp p_val none =
      refit_simple expf chi2 inv X fitTrain fitValid2 interp p_val none) ∧
    (trueIdx m ≠ [] →
      posCount interp (fitTrain (trueIdx m)).1 = 0 →
      listMax ((calc_p_val expf chi2 inv (selectCols X (trueIdx m))
        (fitTrain (trueIdx m)).1 (fitTrain (trueIdx m)).2).1.dropLast) ≤
        p_val →
      refit_simpleStep expf chi2 inv X fitTrain fitValid interp p_val
        (some Xv) m =
      if p_val < listMax ((calc_p_val_on_valid expf chi2 inv fitValid
          (trueIdx m) (selectCols Xv (trueIdx m))).1.dropLast) then
        .drop (m.set ((trueIdx m).getD (argmaxIdx ((calc_p_val_on_valid expf
          chi2 inv fitValid (trueIdx m) (selectCols Xv
          (trueIdx m))).1.dropLast)) 0) false)
      else
        .ret ⟨(fitTrain (trueIdx m)).1, (fitTrain (trueIdx m)).2, m,
          (calc_p_val expf chi2 inv (selectCols X (trueIdx m))
            (fitTrain (trueIdx m)).1 (fitTrain (trueIdx m)).2).1,
          NpValue.method "copy" (calc_p_val expf chi2 inv
            (selectCols X (trueIdx m)) (fitTrain (trueIdx m)).1
            (fitTrain (trueIdx m)).2).2⟩) := by
  refine ⟨?_, ?_, ?_, ?_⟩
  · intro validation
    cases validation <;> rfl
  · intro v
    rfl
  · unfold refit_simple
    exact loop_ignores_fitValid expf chi2 inv X fitTrain fitValid fitValid2
      interp p_val (width X + 1) (List.replicate (width X) true)
  · intro hne hpos hple
    simp only [refit_simpleStep]
    rw [if_neg hne, if_neg (by rw [hpos]; exact lt_irrefl 0),
      if_neg (not_lt.mpr hple)]

/-- C9 (witness): the four conjuncts instantiated on a one-column design
matrix with conforming oracles; in the final pass the validation check also
passes and the pass returns. -/
theorem validation_gating_and_order_witness :
    (validEncPair (fun q : ℚ => q) (fun q : ℚ => q) (some 5) true =
      (none, none)) ∧
    (validEncPair (fun q : ℚ => q) (fun q : ℚ => q) (some 5) false =
      (some 5, some 5)) ∧
    (refit_simple (fun _ => 0) (fun _ => 1) invOnes [[-1]] exFit exFit true 1
      none =
      refit_simple (fun _ => 0) (fun _ => 1) invOnes [[-1]] exFit
        (fun _ => ([2], 3)) true 1 none) ∧
    refit_simpleStep (fun _ => 0) (fun _ => 1) invOnes [[-1]] exFit exFit
      true 1 (some [[-1]]) [true] =
      .ret ⟨[-1], 0, [true], [0, 0], NpValue.method "copy" [1, 1]⟩ := by
  have h := validation_gating_and_order (fun q : ℚ => q) (fun q : ℚ => q)
    (fun _ => 0) (fun _ => 1) invOnes [[-1]] [[-1]] exFit exFit
    (fun _ => ([2], 3)) true 1 [true]
  have hple : listMax ((calc_p_val (fun _ => (0 : ℚ)) (fun _ => (1 : ℚ))
      invOnes (selectCols [[-1]] (trueIdx [true])) (exFit (trueIdx [true])).1
      (exFit (trueIdx [true])).2).1.dropLast) ≤ 1 := by
    norm_num [calc_p_val, selectCols, trueIdx, exFit, dotQ, diagonal,
      invOnes, listMax, List.range_succ]
  refine ⟨h.1 (some 5), h.2.1 5, h.2.2.1, ?_⟩
  rw [h.2.2.2 (by decide) (by decide) hple]
  norm_num [calc_p_val_on_valid, calc_p_val, selectCols, trueIdx, exFit,
    dotQ, diagonal, invOnes, listMax, argmaxIdx, List.range_succ]

/-- `predict_proba` from `autowoe.py`, lines 729-741:
`test_tr = self.test_encoding(test)` — the fitted WoE transformation of the
surviving features, external to this method and supplied as the `encode`
oracle — followed by
`prob = 1 / (1 + np.exp(-(np.dot(test_tr.values, self.weights) +
self.intercept)))`, with `np.exp` as the `expf` oracle. -/
def predict_proba {TF : Type} (expf : ℚ → ℚ)
    (encode : TF → List (List ℚ)) (weights : List ℚ) (intercept : ℚ)
    (test : TF) : List ℚ :=
  let test_tr := encode test
  let scores := test_tr.map (fun row => dotQ row weights)
  scores.map (fun s => 1 / (1 + expf (-(s + intercept))))

/-- The spec's scoring contract for one row:
`probability = sigmoid(Σ coefficient_f · woe_f(x) + intercept)`. -/
def scoreRowSpec (expf : ℚ → ℚ) (weights : List ℚ) (intercept : ℚ)
    (woeRow : List ℚ) : ℚ :=
  1 / (1 + expf (-(dotQ woeRow weights + intercept)))

/-- C10: for every fitted model (weights, intercept, WoE encoding) and
every test frame, `predict_proba` returns, for each row, the sigmoid of the
dot product of the row's WoE-encoded surviving features with the learned
weights plus the intercept. -/
theorem predict_proba_is_rowwise_sigmoid {TF : Type} (expf : ℚ → ℚ)
    (encode : TF → List (List ℚ)) (weights : List ℚ) (intercept : ℚ)
    (test : TF) :
    predict_proba expf encode weights intercept test =
      (encode test).map (scoreRowSpec expf weights intercept) := by
  simp only [predict_proba, scoreRowSpec, List.map_map]
  rfl

/-- The declared parameter names of `refit_reg` (`refit.py`, lines 10-11). -/
def refitRegParams : List String :=
  ["X", "y", "l1_base_step", "l1_exp_step", "max_penalty", "interp"]

/-- The declared parameter names of `refit_simple` (`refit.py`, lines
51-52). -/
def refitSimpleParams : List String :=
  ["X", "y", "interp", "p_val", "X_val", "y_val"]

/-- The keyword-argument names `AutoWoE._clf_fit` passes to `refit_reg`
after the two positional arguments (`autowoe.py`, lines 651-655). -/
def clfFitRegKwargs : List String :=
  ["l1_grid_size", "l1_exp_scale", "max_penalty", "interp"]

/-- The keyword-argument names `AutoWoE._clf_fit` passes to `refit_simple`
after the two positional arguments (`autowoe.py`, lines 660-661). -/
def clfFitSimpleKwargs : List String :=
  ["interp", "p_val", "x_val", "y_val"]

/-- Python call binding, as far as unexpected keywords are concerned: a
call with `npos` positional arguments and the given keyword names binds
without a `TypeError` only if every keyword matches a declared parameter
name not already taken positionally. -/
def acceptsKwargs (params : List String) (npos : Nat)
    (kwargs : List String) : Bool :=
  kwargs.all (fun k => (params.drop npos).contains k)

/-- C4: both delegated refit calls of `AutoWoE._clf_fit` raise a
`TypeError` instead of returning: the call to `refit_reg` passes the
keywords `l1_grid_size` and `l1_exp_scale` but the function declares
`l1_base_step` and `l1_exp_step`; the call to `refit_simple` passes
`x_val` but the function declares `X_val` (keywords are case-sensitive).
So no call of `_clf_fit` reaches a normal return through its refit
delegate. -/
theorem clf_fit_kwargs_rejected :
    acceptsKwargs refitRegParams 2 clfFitRegKwargs = false ∧
      acceptsKwargs refitSimpleParams 2 clfFitSimpleKwargs = false := by
  constructor <;> rfl
